import Mathlib

/-!
Verification of the AR polygon-area measurement app.

The source (src/src/App.jsx) is shallowly embedded below:
* `calculatePolygonArea` mirrors the indexed shoelace loop of the
  function of the same name (x and z coordinates only, `abs(area/2)`).
* `EngineState` holds the `points` array; `placePoint`, `resetScene`
  mirror the handlers, and `count` / `outline` / `areaValue` are the
  derived quantities recomputed by `updateMeasurementVisuals`
  (points count text, the closed line loop, the area display).
* `TrackerState` models the per-frame hit-test state: the
  `hitTestSourceRequested` / `hitTestSource` flags and the reticle
  visibility and pose; `handleSessionEnd` mirrors the session `end`
  listener, `processFrameHits` the per-frame reticle update, and
  `currentTarget` the target consulted by `placePoint`
  (`if (reticle.visible)`).

Coordinates are modelled as rationals (exact arithmetic in place of
IEEE doubles).
-/

structure Point3 where
  x : ℚ
  y : ℚ
  z : ℚ
deriving DecidableEq

instance : Inhabited Point3 := ⟨⟨0, 0, 0⟩⟩

/-- Index into a point list, mirroring `polygonPoints[i]` (indices used by
the source are always in bounds; out-of-bounds yields the default). -/
def nth (l : List Point3) (i : ℕ) : Point3 := l.getD i default

/-- The shoelace accumulation loop of `calculatePolygonArea`:
for `i` in `[0, n)`, `j = (i+1) % n`,
`area += p[i].x * p[j].z; area -= p[j].x * p[i].z`. -/
def shoelaceLoop (pts : List Point3) : ℚ :=
  (List.range pts.length).foldl
    (fun area i =>
      let j := (i + 1) % pts.length
      area + (nth pts i).x * (nth pts j).z - (nth pts j).x * (nth pts i).z)
    0

/-- `calculatePolygonArea` from App.jsx: `Math.abs(area / 2)` of the
shoelace accumulation over the x and z coordinates. -/
def calculatePolygonArea (pts : List Point3) : ℚ :=
  |shoelaceLoop pts / 2|

/-- The spec's own wording of the area formula:
`sum = Σ over i in [0,n) of p[i].x * p[(i+1) mod n].z − p[(i+1) mod n].x * p[i].z`,
written as a literal sum (to be compared with the source loop). -/
def shoelaceSpecSum (pts : List Point3) : ℚ :=
  ((List.range pts.length).map
    (fun i =>
      (nth pts i).x * (nth pts ((i + 1) % pts.length)).z
        - (nth pts ((i + 1) % pts.length)).x * (nth pts i).z)).sum

/-- State of the Polygon Measurement Engine: the `points` array. -/
structure EngineState where
  points : List Point3
deriving DecidableEq

def initialState : EngineState := ⟨[]⟩

/-- `placePoint` from App.jsx: when a target is available
(`reticle.visible`), its position is pushed onto `points`; otherwise
nothing happens. -/
def placePoint (st : EngineState) (target : Option Point3) : EngineState :=
  match target with
  | none => st
  | some p => ⟨st.points ++ [p]⟩

/-- `resetScene` from App.jsx: `points.length = 0` clears the array. -/
def resetScene (_st : EngineState) : EngineState := ⟨[]⟩

/-- Points-placed counter shown by `updateMeasurementVisuals`. -/
def count (st : EngineState) : ℕ := st.points.length

/-- The closed outline drawn by `updateMeasurementVisuals`:
absent when `points.length < 2`, else `[...points, points[0]]`. -/
def outline (st : EngineState) : Option (List Point3) :=
  if st.points.length < 2 then none
  else some (st.points ++ [nth st.points 0])

/-- The displayed area of `updateMeasurementVisuals`: absent below three
points, else `calculatePolygonArea(points)`. -/
def areaValue (st : EngineState) : Option ℚ :=
  if st.points.length < 3 then none
  else some (calculatePolygonArea st.points)

/-- A sequence of placements with defined targets. -/
def placePoints (st : EngineState) (ts : List Point3) : EngineState :=
  ts.foldl (fun s t => placePoint s (some t)) st

/-- Hit Target Tracker state from App.jsx's render loop: the two
hit-test source flags and the reticle (visibility plus pose). -/
structure TrackerState where
  hitTestSourceRequested : Bool
  hitTestSource : Bool
  reticleVisible : Bool
  reticlePose : Point3
deriving DecidableEq

/-- The session `end` listener of App.jsx:
`hitTestSourceRequested = false; hitTestSource = null;`. -/
def handleSessionEnd : TrackerState → TrackerState
  | ⟨_, _, rv, rp⟩ => ⟨false, false, rv, rp⟩

/-- The per-frame reticle update of `render`: when a hit-test source
exists, a non-empty result list makes the reticle visible at the top
hit's pose, an empty one hides it; with no source the reticle is left
as it was. -/
def processFrameHits (st : TrackerState) (hits : List Point3) : TrackerState :=
  if st.hitTestSource then
    match hits with
    | hit :: _ => ⟨st.hitTestSourceRequested, st.hitTestSource, true, hit⟩
    | [] => ⟨st.hitTestSourceRequested, st.hitTestSource, false, st.reticlePose⟩
  else st

/-- The target `placePoint` consults: the reticle pose when visible. -/
def currentTarget (st : TrackerState) : Option Point3 :=
  if st.reticleVisible then some st.reticlePose else none

/-! ### Generic helper lemmas -/

lemma foldl_add_sub (f g : ℕ → ℚ) :
    ∀ (l : List ℕ) (init : ℚ),
      l.foldl (fun a i => a + f i - g i) init
        = init + (l.map (fun i => f i - g i)).sum := by
  intro l
  induction l with
  | nil => intro init; simp
  | cons i t ih =>
    intro init
    simp only [List.foldl_cons, List.map_cons, List.sum_cons, ih]
    ring

/-- The source loop computes exactly the spec's sum. -/
lemma shoelaceLoop_eq_specSum (pts : List Point3) :
    shoelaceLoop pts = shoelaceSpecSum pts := by
  unfold shoelaceLoop shoelaceSpecSum
  rw [foldl_add_sub
    (fun i => (nth pts i).x * (nth pts ((i + 1) % pts.length)).z)
    (fun i => (nth pts ((i + 1) % pts.length)).x * (nth pts i).z)]
  simp

/-- One shoelace cross term over the horizontal plane. -/
def cross2 (p q : Point3) : ℚ := p.x * q.z - q.x * p.z

/-- Sum of shoelace cross terms over the consecutive pairs of a vertex
path (not cyclic; the closing segment is supplied by appending the
first vertex). -/
def segSum : List Point3 → ℚ
  | [] => 0
  | [_] => 0
  | p :: q :: rest => cross2 p q + segSum (q :: rest)

/-- Last vertex of a path (default for the empty path). -/
def lastP : List Point3 → Point3
  | [] => default
  | [p] => p
  | _ :: q :: rest => lastP (q :: rest)

lemma segSum_cons_cons (p q : Point3) (rest : List Point3) :
    segSum (p :: q :: rest) = cross2 p q + segSum (q :: rest) := rfl

lemma lastP_cons_cons (p q : Point3) (rest : List Point3) :
    lastP (p :: q :: rest) = lastP (q :: rest) := rfl

lemma lastP_append_one (l : List Point3) (v : Point3) :
    lastP (l ++ [v]) = v := by
  induction l with
  | nil => rfl
  | cons p t ih =>
    cases t with
    | nil => rfl
    | cons q rest => exact ih

lemma nth_zero_mem (l : List Point3) (h : l ≠ []) : nth l 0 ∈ l := by
  cases l with
  | nil => exact absurd rfl h
  | cons p t => exact List.mem_cons_self p t

lemma nth_reverse_zero (l : List Point3) (h : l ≠ []) :
    nth l.reverse 0 = lastP l := by
  induction l with
  | nil => exact absurd rfl h
  | cons p t ih =>
    cases t with
    | nil => rfl
    | cons q rest =>
      rw [List.reverse_cons, lastP_cons_cons, ← ih (by simp)]
      exact List.getD_append _ _ _ _ (by simp)

lemma segSum_eq_sum (l : List Point3) :
    segSum l
      = ((List.range (l.length - 1)).map
          (fun i => cross2 (nth l i) (nth l (i + 1)))).sum := by
  induction l with
  | nil => simp [segSum]
  | cons p t ih =>
    cases t with
    | nil => simp [segSum]
    | cons q rest =>
      have hmap :
          (List.range (rest.length + 1)).map
              (fun i => cross2 (nth (p :: q :: rest) i) (nth (p :: q :: rest) (i + 1)))
            = cross2 p q ::
              (List.range rest.length).map
                (fun i => cross2 (nth (q :: rest) i) (nth (q :: rest) (i + 1))) := by
        rw [List.range_succ_eq_map, List.map_cons, List.map_map]
        exact congrArg _ (List.map_congr_left (fun i _ => rfl))
      have hlen : (p :: q :: rest).length - 1 = rest.length + 1 := by simp
      rw [segSum_cons_cons, hlen, hmap, List.sum_cons, ih]
      have hlen2 : (q :: rest).length - 1 = rest.length := by simp
      rw [hlen2]

/-- The spec's indexed cyclic sum equals the consecutive-pair sum over
the point list closed by its first point. -/
lemma specSum_eq_segSum (pts : List Point3) (h : pts ≠ []) :
    shoelaceSpecSum pts = segSum (pts ++ [nth pts 0]) := by
  have hpos : 0 < pts.length := List.length_pos.mpr h
  rw [shoelaceSpecSum, segSum_eq_sum]
  have hlen : (pts ++ [nth pts 0]).length - 1 = pts.length := by simp
  rw [hlen]
  refine congrArg List.sum (List.map_congr_left ?_)
  intro i hi
  rw [List.mem_range] at hi
  have h1 : nth (pts ++ [nth pts 0]) i = nth pts i :=
    List.getD_append _ _ _ _ hi
  by_cases hcase : i + 1 < pts.length
  · have hmod : (i + 1) % pts.length = i + 1 := Nat.mod_eq_of_lt hcase
    have h2 : nth (pts ++ [nth pts 0]) (i + 1) = nth pts (i + 1) :=
      List.getD_append _ _ _ _ hcase
    rw [hmod, h1, h2, cross2]
  · have hieq : i + 1 = pts.length := by omega
    have hmod : (i + 1) % pts.length = 0 := by rw [hieq, Nat.mod_self]
    have h2 : nth (pts ++ [nth pts 0]) (i + 1) = nth pts 0 := by
      rw [hieq, nth, List.getD_append_right _ _ _ _ (le_refl _), Nat.sub_self]
      rfl
    rw [hmod, h1, h2, cross2]

lemma segSum_append_one (l : List Point3) (v : Point3) (h : l ≠ []) :
    segSum (l ++ [v]) = segSum l + cross2 (lastP l) v := by
  induction l with
  | nil => exact absurd rfl h
  | cons p t ih =>
    cases t with
    | nil => simp [segSum, lastP]
    | cons q rest =>
      have ih' := ih (by simp)
      have hstep : (p :: q :: rest) ++ [v] = p :: ((q :: rest) ++ [v]) := by simp
      rw [hstep]
      have hcons : segSum (p :: ((q :: rest) ++ [v]))
          = cross2 p q + segSum ((q :: rest) ++ [v]) := rfl
      rw [hcons, ih', segSum_cons_cons, lastP_cons_cons]
      ring

lemma segSum_reverse (l : List Point3) : segSum l.reverse = - segSum l := by
  induction l with
  | nil => simp [segSum]
  | cons p t ih =>
    cases t with
    | nil => simp [segSum]
    | cons q rest =>
      rw [List.reverse_cons, segSum_append_one _ _ (by simp), ih,
        segSum_cons_cons]
      have hlq : lastP (q :: rest).reverse = q := by
        rw [List.reverse_cons, lastP_append_one]
      rw [hlq, cross2, cross2]
      ring

lemma specSum_rotate_one (a : Point3) (t : List Point3) (ht : t ≠ []) :
    shoelaceSpecSum (t ++ [a]) = shoelaceSpecSum (a :: t) := by
  obtain ⟨q, rest, rfl⟩ := List.exists_cons_of_ne_nil ht
  rw [specSum_eq_segSum _ (by simp), specSum_eq_segSum _ (by simp)]
  have h0 : nth ((q :: rest) ++ [a]) 0 = q := rfl
  have h0' : nth (a :: q :: rest) 0 = a := rfl
  rw [h0, h0']
  rw [segSum_append_one _ _ (by simp), lastP_append_one]
  have hstep : (a :: q :: rest) ++ [a] = a :: ((q :: rest) ++ [a]) := by simp
  rw [hstep]
  have hcons : segSum (a :: ((q :: rest) ++ [a]))
      = cross2 a q + segSum ((q :: rest) ++ [a]) := rfl
  rw [hcons]
  ring

lemma area_rotate_one (l : List Point3) (h : 2 ≤ l.length) :
    calculatePolygonArea (l.rotate 1) = calculatePolygonArea l := by
  cases l with
  | nil => simp at h
  | cons a t =>
    cases t with
    | nil => simp at h
    | cons q rest =>
      have hrot : (a :: q :: rest).rotate 1 = (q :: rest) ++ [a] := by
        rw [List.rotate_cons_succ, List.rotate_zero]
      rw [hrot]
      unfold calculatePolygonArea
      rw [shoelaceLoop_eq_specSum, shoelaceLoop_eq_specSum,
        specSum_rotate_one a (q :: rest) (by simp)]

lemma area_rotate (k : ℕ) :
    ∀ l : List Point3, 2 ≤ l.length →
      calculatePolygonArea (l.rotate k) = calculatePolygonArea l := by
  induction k with
  | zero => intro l _; rw [List.rotate_zero]
  | succ k ih =>
    intro l hl
    have hsplit : l.rotate (k + 1) = (l.rotate 1).rotate k := by
      rw [List.rotate_rotate, Nat.add_comm]
    rw [hsplit, ih (l.rotate 1) (by rw [List.length_rotate]; exact hl),
      area_rotate_one l hl]

lemma specSum_reverse (l : List Point3) (h : l ≠ []) :
    shoelaceSpecSum l.reverse = - shoelaceSpecSum l := by
  obtain ⟨p, t, rfl⟩ := List.exists_cons_of_ne_nil h
  rw [specSum_eq_segSum _ (by simp), specSum_eq_segSum _ (by simp)]
  rw [nth_reverse_zero _ (by simp)]
  have hrev : (p :: t).reverse ++ [lastP (p :: t)]
      = (lastP (p :: t) :: (p :: t)).reverse := by
    simp
  rw [hrev, segSum_reverse]
  have h0 : nth (p :: t) 0 = p := rfl
  rw [h0]
  have hL : segSum (lastP (p :: t) :: p :: t)
      = cross2 (lastP (p :: t)) p + segSum (p :: t) := rfl
  have hR : segSum ((p :: t) ++ [p])
      = segSum (p :: t) + cross2 (lastP (p :: t)) p :=
    segSum_append_one _ _ (by simp)
  rw [hL, hR]
  ring

lemma area_reverse (l : List Point3) (h : l ≠ []) :
    calculatePolygonArea l.reverse = calculatePolygonArea l := by
  unfold calculatePolygonArea
  rw [shoelaceLoop_eq_specSum, shoelaceLoop_eq_specSum, specSum_reverse l h,
    neg_div, abs_neg]

lemma segSum_line_a (a b c : ℚ) (l : List Point3)
    (hmem : ∀ p ∈ l, a * p.x + b * p.z = c) :
    a * segSum l = c * ((lastP l).z - (nth l 0).z) := by
  induction l with
  | nil => simp [segSum, lastP, nth, List.getD_nil]
  | cons p t ih =>
    cases t with
    | nil => simp [segSum, lastP, nth]
    | cons q rest =>
      have hp := hmem p (by simp)
      have hq := hmem q (by simp)
      have ih' := ih (fun r hr => hmem r (by simp [hr]))
      rw [segSum_cons_cons, mul_add, ih', lastP_cons_cons]
      have h0 : nth (p :: q :: rest) 0 = p := rfl
      have h0' : nth (q :: rest) 0 = q := rfl
      rw [h0, h0']
      have hcr : a * cross2 p q = c * (q.z - p.z) := by
        rw [cross2]
        linear_combination q.z * hp - p.z * hq
      rw [hcr]
      ring

lemma segSum_line_b (a b c : ℚ) (l : List Point3)
    (hmem : ∀ p ∈ l, a * p.x + b * p.z = c) :
    b * segSum l = c * ((nth l 0).x - (lastP l).x) := by
  induction l with
  | nil => simp [segSum, lastP, nth, List.getD_nil]
  | cons p t ih =>
    cases t with
    | nil => simp [segSum, lastP, nth]
    | cons q rest =>
      have hp := hmem p (by simp)
      have hq := hmem q (by simp)
      have ih' := ih (fun r hr => hmem r (by simp [hr]))
      rw [segSum_cons_cons, mul_add, ih', lastP_cons_cons]
      have h0 : nth (p :: q :: rest) 0 = p := rfl
      have h0' : nth (q :: rest) 0 = q := rfl
      rw [h0, h0']
      have hcr : b * cross2 p q = c * (p.x - q.x) := by
        rw [cross2]
        linear_combination p.x * hq - q.x * hp
      rw [hcr]
      ring

/-- The shoelace sum of points whose horizontal projections lie on a
common line a·x + b·z = c vanishes. -/
lemma specSum_line (pts : List Point3) (hne : pts ≠ []) (a b c : ℚ)
    (hab : a ≠ 0 ∨ b ≠ 0) (hline : ∀ p ∈ pts, a * p.x + b * p.z = c) :
    shoelaceSpecSum pts = 0 := by
  rw [specSum_eq_segSum pts hne]
  have hmem : ∀ p ∈ pts ++ [nth pts 0], a * p.x + b * p.z = c := by
    intro p hp
    rw [List.mem_append] at hp
    rcases hp with hp | hp
    · exact hline p hp
    · rw [List.mem_singleton] at hp
      subst hp
      exact hline _ (nth_zero_mem pts hne)
  have hlast : lastP (pts ++ [nth pts 0]) = nth pts 0 :=
    lastP_append_one pts (nth pts 0)
  have hhead : nth (pts ++ [nth pts 0]) 0 = nth pts 0 :=
    List.getD_append _ _ _ _ (List.length_pos.mpr hne)
  have ha := segSum_line_a a b c _ hmem
  have hb := segSum_line_b a b c _ hmem
  rw [hlast, hhead, sub_self, mul_zero] at ha hb
  rcases hab with h | h
  · rcases mul_eq_zero.mp ha with h' | h'
    · exact absurd h' h
    · exact h'
  · rcases mul_eq_zero.mp hb with h' | h'
    · exact absurd h' h
    · exact h'

/-! ### Engine-level helper lemmas -/

lemma placePoints_count (ts : List Point3) :
    ∀ st : EngineState, count (placePoints st ts) = count st + ts.length := by
  induction ts with
  | nil => intro st; simp [placePoints, count]
  | cons t ts ih =>
    intro st
    have hstep : placePoints st (t :: ts)
        = placePoints ⟨st.points ++ [t]⟩ ts := rfl
    rw [hstep, ih]
    simp [count]
    omega

/-! ### Claims -/

/-- C1: for every point list with at least three points,
`calculatePolygonArea` equals the absolute value of the spec's shoelace
sum over the two horizontal axes (x and z, y ignored), divided by two. -/
theorem C1_area_formula (pts : List Point3) (h : 3 ≤ pts.length) :
    calculatePolygonArea pts = |shoelaceSpecSum pts| / 2 := by
  rw [calculatePolygonArea, shoelaceLoop_eq_specSum, abs_div]
  norm_num

/-- C1 witness: the formula instantiated on a concrete triangle. -/
theorem C1_area_formula_witness :
    3 ≤ ([⟨0,0,0⟩, ⟨4,0,0⟩, ⟨0,0,3⟩] : List Point3).length ∧
      calculatePolygonArea [⟨0,0,0⟩, ⟨4,0,0⟩, ⟨0,0,3⟩]
        = |shoelaceSpecSum [⟨0,0,0⟩, ⟨4,0,0⟩, ⟨0,0,3⟩]| / 2 :=
  ⟨by decide, C1_area_formula _ (by decide)⟩

/-- C2 counterexample: starting from a tracker whose reticle is visible,
running the session-end handler (with no further frame hit results)
leaves the current target defined, and a subsequent `placePoint`
appends a point instead of being a no-op — the claim that the target
is cleared is false on the code. -/
theorem C2_counterexample :
    currentTarget (handleSessionEnd ⟨true, true, true, ⟨1, 0, 1⟩⟩) ≠ none ∧
      count (placePoint initialState
        (currentTarget (handleSessionEnd ⟨true, true, true, ⟨1, 0, 1⟩⟩))) = 1 := by
  constructor
  · intro h
    simp [handleSessionEnd, currentTarget] at h
  · rfl

/-- C2 as amended: the session-end handler clears the hit-test source
flags (so frames after session end produce no target updates), but the
current target itself — the reticle visibility and pose consulted by
`placePoint` — is left unchanged. -/
theorem C2_session_end_state (st : TrackerState) :
    (handleSessionEnd st).hitTestSourceRequested = false ∧
      (handleSessionEnd st).hitTestSource = false ∧
      (handleSessionEnd st).reticleVisible = st.reticleVisible ∧
      (handleSessionEnd st).reticlePose = st.reticlePose ∧
      currentTarget (handleSessionEnd st) = currentTarget st ∧
      ∀ hits, processFrameHits (handleSessionEnd st) hits = handleSessionEnd st := by
  obtain ⟨r, s, v, p⟩ := st
  exact ⟨rfl, rfl, rfl, rfl, rfl, fun hits => rfl⟩

/-- C3: for every engine state, the outline is undefined below two
points; with at least two points it is defined, equals the point list
with its first point appended, has count+1 vertices, and its last
vertex equals its first. -/
theorem C3_outline_invariant (st : EngineState) :
    (count st < 2 → outline st = none) ∧
      (2 ≤ count st → ∃ l, outline st = some l ∧
        l = st.points ++ [nth st.points 0] ∧
        l.length = count st + 1 ∧
        nth l 0 = nth l (count st)) := by
  constructor
  · intro h
    rw [outline]
    exact if_pos h
  · intro h
    have hlen : 2 ≤ st.points.length := h
    refine ⟨st.points ++ [nth st.points 0], ?_, rfl, ?_, ?_⟩
    · rw [outline, if_neg (by omega)]
    · simp [count]
    · have h1 : nth (st.points ++ [nth st.points 0]) 0 = nth st.points 0 :=
        List.getD_append _ _ _ _ (by omega)
      have h2 : nth (st.points ++ [nth st.points 0]) (count st)
          = nth st.points 0 := by
        rw [count, nth, List.getD_append_right _ _ _ _ (le_refl _), Nat.sub_self]
        rfl
      rw [h1, h2]

/-- C3 witness: the outline invariant on the empty state and on a
concrete two-point state. -/
theorem C3_outline_invariant_witness :
    (outline ⟨[]⟩ = none) ∧
      ∃ l, outline ⟨[⟨0,0,0⟩, ⟨1,0,0⟩]⟩ = some l ∧
        l = [⟨0,0,0⟩, ⟨1,0,0⟩] ++ [nth [⟨0,0,0⟩, ⟨1,0,0⟩] 0] ∧
        l.length = count ⟨[⟨0,0,0⟩, ⟨1,0,0⟩]⟩ + 1 ∧
        nth l 0 = nth l (count ⟨[⟨0,0,0⟩, ⟨1,0,0⟩]⟩) :=
  ⟨(C3_outline_invariant ⟨[]⟩).1 (by decide),
   (C3_outline_invariant ⟨[⟨0,0,0⟩, ⟨1,0,0⟩]⟩).2 (by decide)⟩

/-- C4: for every engine state, the area value is absent below three
points; with at least three points it is defined and non-negative. -/
theorem C4_area_invariant (st : EngineState) :
    (count st < 3 → areaValue st = none) ∧
      (3 ≤ count st → ∃ a, areaValue st = some a ∧ 0 ≤ a) := by
  constructor
  · intro h
    rw [areaValue]
    exact if_pos h
  · intro h
    have hlen : 3 ≤ st.points.length := h
    refine ⟨calculatePolygonArea st.points, ?_, ?_⟩
    · rw [areaValue, if_neg (by omega)]
    · show (0:ℚ) ≤ |shoelaceLoop st.points / 2|
      exact abs_nonneg _

/-- C4 witness: the area invariant on a two-point state and a
three-point state. -/
theorem C4_area_invariant_witness :
    (areaValue ⟨[⟨0,0,0⟩, ⟨1,0,0⟩]⟩ = none) ∧
      ∃ a, areaValue ⟨[⟨0,0,0⟩, ⟨4,0,0⟩, ⟨0,0,3⟩]⟩ = some a ∧ 0 ≤ a :=
  ⟨(C4_area_invariant ⟨[⟨0,0,0⟩, ⟨1,0,0⟩]⟩).1 (by decide),
   (C4_area_invariant ⟨[⟨0,0,0⟩, ⟨4,0,0⟩, ⟨0,0,3⟩]⟩).2 (by decide)⟩

/-- C5: `placePoint` with an undefined target leaves the whole engine
state — the point list, count, outline and area value — unchanged, and
signals nothing. -/
theorem C5_placePoint_no_target (st : EngineState) :
    placePoint st none = st ∧
      count (placePoint st none) = count st ∧
      outline (placePoint st none) = outline st ∧
      areaValue (placePoint st none) = areaValue st :=
  ⟨rfl, rfl, rfl, rfl⟩

/-- C6: from any engine state, `resetScene` yields count zero, an
undefined outline and an undefined area value. -/
theorem C6_reset (st : EngineState) :
    count (resetScene st) = 0 ∧ outline (resetScene st) = none ∧
      areaValue (resetScene st) = none :=
  ⟨rfl, rfl, rfl⟩

/-- C7: after any sequence of defined-target placements following a
reset (or from the initial state), the count equals the number of
placements made, and each defined-target placement appends exactly one
point. -/
theorem C7_count_tracks_placements (st : EngineState) (ts : List Point3)
    (t : Point3) :
    count (placePoints (resetScene st) ts) = ts.length ∧
      count (placePoints initialState ts) = ts.length ∧
      (placePoint (placePoints initialState ts) (some t)).points
        = (placePoints initialState ts).points ++ [t] := by
  refine ⟨?_, ?_, rfl⟩
  · rw [placePoints_count]
    show 0 + ts.length = ts.length
    exact Nat.zero_add _
  · rw [placePoints_count]
    show 0 + ts.length = ts.length
    exact Nat.zero_add _

/-- C8: for every point list with at least three points, the computed
area is invariant under reversal of the point order and under every
cyclic shift of the starting index. -/
theorem C8_area_winding_and_shift (pts : List Point3) (h : 3 ≤ pts.length) :
    calculatePolygonArea pts.reverse = calculatePolygonArea pts ∧
      ∀ k, calculatePolygonArea (pts.rotate k) = calculatePolygonArea pts := by
  have hne : pts ≠ [] := by
    intro hnil
    rw [hnil] at h
    simp at h
  exact ⟨area_reverse pts hne, fun k => area_rotate k pts (by omega)⟩

/-- C8 witness: reversal and a one-step cyclic shift of a concrete
triangle leave its area unchanged. -/
theorem C8_area_winding_and_shift_witness :
    calculatePolygonArea ([⟨0,0,0⟩, ⟨4,0,0⟩, ⟨0,0,3⟩] : List Point3).reverse
        = calculatePolygonArea [⟨0,0,0⟩, ⟨4,0,0⟩, ⟨0,0,3⟩] ∧
      calculatePolygonArea (([⟨0,0,0⟩, ⟨4,0,0⟩, ⟨0,0,3⟩] : List Point3).rotate 1)
        = calculatePolygonArea [⟨0,0,0⟩, ⟨4,0,0⟩, ⟨0,0,3⟩] :=
  ⟨(C8_area_winding_and_shift _ (by decide)).1,
   (C8_area_winding_and_shift _ (by decide)).2 1⟩

/-- C9: placing the four corners of the side-2 square from the empty
state gives count 4 and area 4; placing the 4–3 right triangle gives
area 6, and a subsequent reset gives count 0 with the area absent. -/
theorem C9_concrete_scenarios :
    count (placePoints initialState [⟨0,0,0⟩, ⟨2,0,0⟩, ⟨2,0,2⟩, ⟨0,0,2⟩]) = 4 ∧
      areaValue (placePoints initialState [⟨0,0,0⟩, ⟨2,0,0⟩, ⟨2,0,2⟩, ⟨0,0,2⟩])
        = some 4 ∧
      areaValue (placePoints initialState [⟨0,0,0⟩, ⟨4,0,0⟩, ⟨0,0,3⟩]) = some 6 ∧
      count (resetScene (placePoints initialState [⟨0,0,0⟩, ⟨4,0,0⟩, ⟨0,0,3⟩])) = 0 ∧
      areaValue (resetScene (placePoints initialState [⟨0,0,0⟩, ⟨4,0,0⟩, ⟨0,0,3⟩]))
        = none := by
  refine ⟨rfl, ?_, ?_, rfl, rfl⟩
  · rw [show placePoints initialState [⟨0,0,0⟩, ⟨2,0,0⟩, ⟨2,0,2⟩, ⟨0,0,2⟩]
        = (⟨[⟨0,0,0⟩, ⟨2,0,0⟩, ⟨2,0,2⟩, ⟨0,0,2⟩]⟩ : EngineState) from rfl]
    rw [areaValue, if_neg (by decide)]
    refine congrArg some ?_
    rw [calculatePolygonArea, shoelaceLoop]
    rw [show ((⟨[⟨0,0,0⟩, ⟨2,0,0⟩, ⟨2,0,2⟩, ⟨0,0,2⟩]⟩ : EngineState)).points.length
        = 4 from rfl]
    rw [show List.range 4 = [0, 1, 2, 3] from rfl]
    simp only [List.foldl_cons, List.foldl_nil]
    norm_num [nth]
  · rw [show placePoints initialState [⟨0,0,0⟩, ⟨4,0,0⟩, ⟨0,0,3⟩]
        = (⟨[⟨0,0,0⟩, ⟨4,0,0⟩, ⟨0,0,3⟩]⟩ : EngineState) from rfl]
    rw [areaValue, if_neg (by decide)]
    refine congrArg some ?_
    rw [calculatePolygonArea, shoelaceLoop]
    rw [show ((⟨[⟨0,0,0⟩, ⟨4,0,0⟩, ⟨0,0,3⟩]⟩ : EngineState)).points.length
        = 3 from rfl]
    rw [show List.range 3 = [0, 1, 2] from rfl]
    simp only [List.foldl_cons, List.foldl_nil]
    norm_num [nth]

/-- C10: for every engine state with at least three points whose
horizontal projections lie on a common line (including the coincident
case), the area value is defined and equals exactly zero. -/
theorem C10_degenerate_zero_area (st : EngineState)
    (h3 : 3 ≤ st.points.length) (a b c : ℚ) (hab : a ≠ 0 ∨ b ≠ 0)
    (hline : ∀ p ∈ st.points, a * p.x + b * p.z = c) :
    areaValue st = some 0 := by
  have hne : st.points ≠ [] := by
    intro hnil
    rw [hnil] at h3
    simp at h3
  rw [areaValue, if_neg (by omega)]
  refine congrArg some ?_
  rw [calculatePolygonArea, shoelaceLoop_eq_specSum,
    specSum_line st.points hne a b c hab hline]
  norm_num

/-- C10 witness: three concrete collinear points yield area exactly 0. -/
theorem C10_degenerate_zero_area_witness :
    areaValue ⟨[⟨0,0,0⟩, ⟨1,0,1⟩, ⟨2,0,2⟩]⟩ = some 0 :=
  C10_degenerate_zero_area ⟨[⟨0,0,0⟩, ⟨1,0,1⟩, ⟨2,0,2⟩]⟩ (by decide)
    1 (-1) 0 (Or.inl one_ne_zero)
    (by intro p hp; fin_cases hp <;> norm_num)
